import Mathlib

set_option maxHeartbeats 1000000
set_option maxRecDepth 8000

/- Shallow embedding of the eMailMiner crawler sources
   (src/mail_miner.py and src/mail_miner_mt.py; their scrape_domain,
   save_to_db and per-domain processing logic are identical).  Python
   strings are modelled as List Char, Python sets as Finset, the deque
   as a List whose head is the next popleft.  The HTTP fetch and the
   HTML anchor extraction are the external primitives of the design:
   a Fixture maps a URL either to none (modelling a timeout or network
   failure of requests.get) or to a Page carrying the status code, the
   body text and the list of anchor href strings delivered by the parse
   primitive (a missing href attribute yields the empty string, as with
   attrs.get of the source). -/

namespace MailMiner

/-- Bool test that the first list is a prefix of the second (Python startswith). -/
def isPrefixL : List Char → List Char → Bool
  | [], _ => true
  | _ :: _, [] => false
  | a :: as, b :: bs => a == b && isPrefixL as bs

/-- Bool test that needle occurs as a contiguous substring of hay (Python in). -/
def containsL (needle : List Char) : List Char → Bool
  | [] => isPrefixL needle []
  | c :: t => isPrefixL needle (c :: t) || containsL needle t

/-- Bool test that needle is a suffix of hay (needle equals some tail of hay). -/
def isSuffixL (needle : List Char) : List Char → Bool
  | [] => needle == []
  | c :: t => needle == c :: t || isSuffixL needle t

/-- Characters allowed in a URL scheme by urllib (letters, digits, plus, minus, dot). -/
def scheme_chars (c : Char) : Bool :=
  c.isAlpha || c.isDigit || c == '+' || c == '-' || c == '.'

/-- Result of urllib.parse.urlsplit, restricted to the components the source reads. -/
structure UrlParts where
  scheme : List Char
  netloc : List Char
  path : List Char
deriving DecidableEq

/-- Model of urllib.parse.urlsplit (also of the scheme and netloc fields of
urlparse, which is_valid_url reads): the scheme is the lowercased text before
the first colon when that text is nonempty, starts with a letter and is made of
scheme characters; a netloc follows a double slash and runs to the next slash,
question mark or hash; the path is the remainder cut at a question mark or hash. -/
def urlsplit (url : List Char) : UrlParts :=
  let sp : List Char × List Char :=
    match url.findIdx? (fun c => c == ':') with
    | some i =>
      if decide (0 < i) && (url.headD ' ').isAlpha && (url.take i).all scheme_chars then
        ((url.take i).map Char.toLower, url.drop (i + 1))
      else ([], url)
    | none => ([], url)
  match sp with
  | (scheme, rest) =>
    match rest with
    | '/' :: '/' :: r =>
      { scheme := scheme
        netloc := r.takeWhile fun c => !(c == '/' || c == '?' || c == '#')
        path := (r.dropWhile fun c => !(c == '/' || c == '?' || c == '#')).takeWhile
          fun c => !(c == '?' || c == '#') }
    | _ =>
      { scheme := scheme
        netloc := []
        path := rest.takeWhile fun c => !(c == '?' || c == '#') }

/-- Model of is_valid_url: scheme http or https and nonempty netloc. -/
def is_valid_url (url : List Char) : Bool :=
  let p := urlsplit url
  (p.scheme == "http".toList || p.scheme == "https".toList) && !(p.netloc == [])

/-- Model of the base_url format string of scrape_domain: scheme, colon, double
slash, netloc. -/
def baseUrlOf (url : List Char) : List Char :=
  (urlsplit url).scheme ++ "://".toList ++ (urlsplit url).netloc

/-- Model of the slice url[:url.rfind(slash)+1]: the prefix of url up to and
including its last slash, empty when url has no slash. -/
def upToLastSlash (url : List Char) : List Char :=
  (url.reverse.dropWhile fun c => !(c == '/')).reverse

/-- Model of the path variable of scrape_domain: the prefix of the url up to and
including its last slash when the path component contains a slash, else the
whole url. -/
def pathOf (url : List Char) : List Char :=
  if '/' ∈ (urlsplit url).path then upToLastSlash url else url

/-- Link normalization of scrape_domain: a link starting with a slash is glued
onto the base url, a link not starting with http is glued onto the path value,
and any other link is kept unchanged. -/
def normalizeLink (base pathv link : List Char) : List Char :=
  if isPrefixL "/".toList link then base ++ link
  else if isPrefixL "http".toList link then link
  else pathv ++ link

/-- Exclusion list of scrape_domain. -/
def exclusion_list : List (List Char) :=
  [".jpg".toList, ".jpeg".toList, ".pdf".toList, ".png".toList]

/-- Model of any x in link for x in exclusion_list: substring containment of any
excluded extension anywhere in the link. -/
def hasExcluded (link : List Char) : Bool :=
  exclusion_list.any fun x => containsL x link

/-- Characters of the bracket class of the email regex under re.I: letters,
digits, dot, minus, plus, underscore (ASCII model of the case-insensitive class). -/
def isEmailChar (c : Char) : Bool :=
  c.isAlpha || c.isDigit || c == '.' || c == '-' || c == '+' || c == '_'

/-- Valid split positions inside the run after the at sign: index k of a literal
dot preceded by a nonempty domain part and followed by a letter. -/
def validDotIdx (run : List Char) (k : Nat) : Bool :=
  decide (1 ≤ k) && decide (k + 1 < run.length) &&
    (run.getD k ' ' == '.') && (run.getD (k + 1) ' ').isAlpha

/-- Greedy leftmost match of the email regex at the head of cs: a maximal run of
email characters, an at sign, then the maximal email-character run split at the
rightmost dot that is followed by a letter (the greedy backtracking choice of
the regex engine), then a maximal run of letters.  Returns the matched text and
the rest of the input after the match. -/
def matchEmail (cs : List Char) : Option (List Char × List Char) :=
  let loc := cs.takeWhile isEmailChar
  let r1 := cs.dropWhile isEmailChar
  if loc == [] then none
  else
    match r1 with
    | '@' :: r2 =>
      let run := r2.takeWhile isEmailChar
      let after := r2.dropWhile isEmailChar
      match ((List.range run.length).filter (validDotIdx run)).getLast? with
      | some k =>
        some (loc ++ '@' :: (run.take k ++ '.' :: (run.drop (k + 1)).takeWhile Char.isAlpha),
              ((run.drop (k + 1)).dropWhile Char.isAlpha) ++ after)
      | none => none
    | _ => none

/-- Model of re.findall with the email pattern: scan left to right, take each
leftmost non overlapping match, resume after it, else advance one character.
The fuel argument only bounds the recursion; it never runs out when it starts
at the input length, since every branch consumes at least one character. -/
def findallAux : Nat → List Char → List (List Char)
  | 0, _ => []
  | _ + 1, [] => []
  | n + 1, c :: cs =>
    match matchEmail (c :: cs) with
    | some (m, rest) => m :: findallAux n rest
    | none => findallAux n cs

/-- Model of set(re.findall(pattern, response.text, re.I)). -/
def extractEmails (body : List Char) : Finset (List Char) :=
  (findallAux body.length body).foldr insert ∅

/-- Fetched page as seen by scrape_domain: the status code, the body text, and
the anchor href strings that the HTML parse primitive yields for that body. -/
structure Page where
  status : Nat
  body : List Char
  links : List (List Char)
deriving DecidableEq

/-- Fetch fixture: none models a timeout or network failure of requests.get. -/
abbrev Fixture : Type := List Char → Option Page

/-- Loop state of scrape_domain: the deque urls (head is popped next), the set
of found emails and the set of scraped urls. -/
structure CrawlState where
  urls : List (List Char)
  local_emails : Finset (List Char)
  local_scraped_urls : Finset (List Char)
deriving DecidableEq

/-- Model of the anchor loop of scrape_domain: each href is normalized and
appended to the deque when it is not already in the deque, not in the scraped
set, and free of excluded extensions.  The deque argument evolves through the
loop, so duplicates within one page are also filtered. -/
def addLinks (base pathv : List Char) (links : List (List Char))
    (urls : List (List Char)) (scraped : Finset (List Char)) : List (List Char) :=
  match links with
  | [] => urls
  | l :: ls =>
    let link := normalizeLink base pathv l
    if link ∈ urls ∨ link ∈ scraped ∨ hasExcluded link = true then
      addLinks base pathv ls urls scraped
    else
      addLinks base pathv ls (urls ++ [link]) scraped

/-- Outcome of one iteration of the while loop: either the loop continues with a
new state, or a break returns the pair of found emails and scraped urls. -/
inductive StepOut where
  | exitRes (r : Finset (List Char) × Finset (List Char))
  | cont (s : CrawlState)

/-- One iteration of the while loop of scrape_domain on the popped url u with
remaining deque rest: the url joins the scraped set first; an invalid url or a
fetch failure skips to the next iteration; a response with status other than
200 breaks out of the whole loop; otherwise emails are extracted from the body,
links are enqueued, and the loop breaks when the scraped count has reached
max_urls. -/
def crawlStep (F : Fixture) (max_urls : Nat) (s : CrawlState)
    (u : List Char) (rest : List (List Char)) : StepOut :=
  let scraped' := insert u s.local_scraped_urls
  if is_valid_url u = false then
    StepOut.cont ⟨rest, s.local_emails, scraped'⟩
  else
    match F u with
    | none => StepOut.cont ⟨rest, s.local_emails, scraped'⟩
    | some page =>
      if page.status ≠ 200 then StepOut.exitRes (s.local_emails, scraped')
      else
        let emails' := s.local_emails ∪ extractEmails page.body
        let urls' := addLinks (baseUrlOf u) (pathOf u) page.links rest scraped'
        if max_urls ≤ scraped'.card then StepOut.exitRes (emails', scraped')
        else StepOut.cont ⟨urls', emails', scraped'⟩

/-- While loop of scrape_domain, driven by fuel: some result when the loop
finishes within fuel iterations, none when the fuel runs out. -/
def crawlLoop (F : Fixture) (max_urls : Nat) :
    Nat → CrawlState → Option (Finset (List Char) × Finset (List Char))
  | 0, _ => none
  | fuel + 1, s =>
    match s.urls with
    | [] => some (s.local_emails, s.local_scraped_urls)
    | u :: rest =>
      match crawlStep F max_urls s u rest with
      | StepOut.exitRes r => some r
      | StepOut.cont s' => crawlLoop F max_urls fuel s'

/-- States of the crawl at each head of the while loop, in order, starting with
the given state. -/
def crawlStates (F : Fixture) (max_urls : Nat) : Nat → CrawlState → List CrawlState
  | 0, s => [s]
  | fuel + 1, s =>
    s ::
      match s.urls with
      | [] => []
      | u :: rest =>
        match crawlStep F max_urls s u rest with
        | StepOut.exitRes _ => []
        | StepOut.cont s' => crawlStates F max_urls fuel s'

/-- Model of scrape_domain: run the while loop from the deque holding only the
domain, with empty email and scraped sets. -/
def scrape_domain (domain : List Char) (max_urls : Nat) (F : Fixture) (fuel : Nat) :
    Option (Finset (List Char) × Finset (List Char)) :=
  crawlLoop F max_urls fuel ⟨[domain], ∅, ∅⟩

/-- Value stored in the email column: the caller inserts either a text email or
the integer 0 sentinel (sqlite columns are dynamically typed). -/
inductive DbVal where
  | intVal (n : Int)
  | textVal (s : List Char)
deriving DecidableEq

/-- Rows of the emails table, in insertion order. -/
abbrev EmailsTable : Type := List (List Char × DbVal)

/-- Model of INSERT OR IGNORE under the UNIQUE(domain, email) constraint of
init_db: a row already present is silently ignored. -/
def insertOrIgnore (db : EmailsTable) (row : List Char × DbVal) : EmailsTable :=
  if row ∈ db then db else db ++ [row]

/-- Model of save_to_db: insert each email for the domain, ignoring duplicates. -/
def save_to_db (db : EmailsTable) (domain : List Char) : List DbVal → EmailsTable
  | [] => db
  | e :: es => save_to_db (insertOrIgnore db (domain, e)) domain es

/-- Body of the domain loop of process_domains_and_save_to_db: scrape, then
store the emails when some were found, else store the integer 0 sentinel row.
Python iterates over the email set in an unspecified order; the model fixes the
sorted order, and every property proved below is insensitive to that order. -/
def process_one_domain (F : Fixture) (fuel max_urls : Nat)
    (db : EmailsTable) (domain : List Char) : EmailsTable :=
  match scrape_domain domain max_urls F fuel with
  | none => db
  | some (emails_found, _) =>
    if emails_found = ∅ then save_to_db db domain [DbVal.intVal 0]
    else save_to_db db domain ((emails_found.sort (· ≤ ·)).map DbVal.textVal)

/-- Model of process_domains_and_save_to_db over a list of domains. -/
def process_domains_and_save_to_db (F : Fixture) (fuel max_urls : Nat)
    (domains : List (List Char)) (db : EmailsTable) : EmailsTable :=
  domains.foldl (process_one_domain F fuel max_urls) db

/-- URL was valid and its fetch produced a response (of any status): exactly the
urls whose loop iteration reaches the max_urls bound check or the status break. -/
def respondedValid (F : Fixture) (u : List Char) : Bool :=
  is_valid_url u && (F u).isSome

/-! Unfolding lemmas for the loop, one per branch of an iteration. -/

theorem crawlStep_invalid {F : Fixture} {K : Nat} {s : CrawlState} {u : List Char}
    {rest : List (List Char)} (hv : is_valid_url u = false) :
    crawlStep F K s u rest = StepOut.cont ⟨rest, s.local_emails, insert u s.local_scraped_urls⟩ := by
  simp [crawlStep, hv]

theorem crawlStep_timeout {F : Fixture} {K : Nat} {s : CrawlState} {u : List Char}
    {rest : List (List Char)} (hv : is_valid_url u = true) (hF : F u = none) :
    crawlStep F K s u rest = StepOut.cont ⟨rest, s.local_emails, insert u s.local_scraped_urls⟩ := by
  simp [crawlStep, hv, hF]

theorem crawlStep_non200 {F : Fixture} {K : Nat} {s : CrawlState} {u : List Char}
    {rest : List (List Char)} {page : Page} (hv : is_valid_url u = true)
    (hF : F u = some page) (hs : page.status ≠ 200) :
    crawlStep F K s u rest = StepOut.exitRes (s.local_emails, insert u s.local_scraped_urls) := by
  simp [crawlStep, hv, hF, hs]

theorem crawlStep_ok_break {F : Fixture} {K : Nat} {s : CrawlState} {u : List Char}
    {rest : List (List Char)} {page : Page} (hv : is_valid_url u = true)
    (hF : F u = some page) (hs : page.status = 200)
    (hK : K ≤ (insert u s.local_scraped_urls).card) :
    crawlStep F K s u rest =
      StepOut.exitRes (s.local_emails ∪ extractEmails page.body, insert u s.local_scraped_urls) := by
  simp [crawlStep, hv, hF, hs, hK]

theorem crawlStep_ok_cont {F : Fixture} {K : Nat} {s : CrawlState} {u : List Char}
    {rest : List (List Char)} {page : Page} (hv : is_valid_url u = true)
    (hF : F u = some page) (hs : page.status = 200)
    (hK : ¬ K ≤ (insert u s.local_scraped_urls).card) :
    crawlStep F K s u rest = StepOut.cont
      ⟨addLinks (baseUrlOf u) (pathOf u) page.links rest (insert u s.local_scraped_urls),
       s.local_emails ∪ extractEmails page.body, insert u s.local_scraped_urls⟩ := by
  simp [crawlStep, hv, hF, hs, hK]

/-- Case analysis for an iteration that continues the loop: the scraped set gains
exactly the popped url, and either the iteration was a skip (invalid url or fetch
failure, deque simply shrinks) or a successful 200 fetch below the bound whose
deque is rest plus the newly enqueued links. -/
theorem crawlStep_cont_cases {F : Fixture} {K : Nat} {s : CrawlState} {u : List Char}
    {rest : List (List Char)} {s' : CrawlState}
    (h : crawlStep F K s u rest = StepOut.cont s') :
    s'.local_scraped_urls = insert u s.local_scraped_urls ∧
      ((s'.urls = rest ∧ respondedValid F u = false) ∨
       (∃ page, F u = some page ∧ page.status = 200 ∧
          (insert u s.local_scraped_urls).card < K ∧
          s'.urls = addLinks (baseUrlOf u) (pathOf u) page.links rest
            (insert u s.local_scraped_urls))) := by
  by_cases hv : is_valid_url u = false
  · rw [crawlStep_invalid hv] at h
    cases h
    exact ⟨rfl, Or.inl ⟨rfl, by simp [respondedValid, hv]⟩⟩
  · have hv' : is_valid_url u = true := by simpa using hv
    cases hF : F u with
    | none =>
      rw [crawlStep_timeout hv' hF] at h
      cases h
      exact ⟨rfl, Or.inl ⟨rfl, by simp [respondedValid, hF]⟩⟩
    | some page =>
      by_cases hs : page.status = 200
      · by_cases hK : K ≤ (insert u s.local_scraped_urls).card
        · rw [crawlStep_ok_break hv' hF hs hK] at h
          cases h
        · rw [crawlStep_ok_cont hv' hF hs hK] at h
          cases h
          exact ⟨rfl, Or.inr ⟨page, rfl, hs, Nat.lt_of_not_le hK, rfl⟩⟩
      · rw [crawlStep_non200 hv' hF hs] at h
        cases h

/-- An iteration that breaks out of the loop returns a scraped set that gains
exactly the popped url. -/
theorem crawlStep_exit_scraped {F : Fixture} {K : Nat} {s : CrawlState} {u : List Char}
    {rest : List (List Char)} {r : Finset (List Char) × Finset (List Char)}
    (h : crawlStep F K s u rest = StepOut.exitRes r) :
    r.2 = insert u s.local_scraped_urls := by
  by_cases hv : is_valid_url u = false
  · rw [crawlStep_invalid hv] at h
    cases h
  · have hv' : is_valid_url u = true := by simpa using hv
    cases hF : F u with
    | none =>
      rw [crawlStep_timeout hv' hF] at h
      cases h
    | some page =>
      by_cases hs : page.status = 200
      · by_cases hK : K ≤ (insert u s.local_scraped_urls).card
        · rw [crawlStep_ok_break hv' hF hs hK] at h
          cases h
          rfl
        · rw [crawlStep_ok_cont hv' hF hs hK] at h
          cases h
      · rw [crawlStep_non200 hv' hF hs] at h
        cases h
        rfl

theorem crawlLoop_succ_nil {F : Fixture} {K n : Nat} {s : CrawlState} (h : s.urls = []) :
    crawlLoop F K (n + 1) s = some (s.local_emails, s.local_scraped_urls) := by
  simp only [crawlLoop, h]

theorem crawlLoop_succ_exit {F : Fixture} {K n : Nat} {s : CrawlState} {u : List Char}
    {rest : List (List Char)} {r : Finset (List Char) × Finset (List Char)}
    (h1 : s.urls = u :: rest) (h2 : crawlStep F K s u rest = StepOut.exitRes r) :
    crawlLoop F K (n + 1) s = some r := by
  simp only [crawlLoop, h1, h2]

theorem crawlLoop_succ_cont {F : Fixture} {K n : Nat} {s s' : CrawlState} {u : List Char}
    {rest : List (List Char)}
    (h1 : s.urls = u :: rest) (h2 : crawlStep F K s u rest = StepOut.cont s') :
    crawlLoop F K (n + 1) s = crawlLoop F K n s' := by
  simp only [crawlLoop, h1, h2]

theorem crawlStates_succ_nil {F : Fixture} {K n : Nat} {s : CrawlState} (h : s.urls = []) :
    crawlStates F K (n + 1) s = [s] := by
  simp only [crawlStates, h]

theorem crawlStates_succ_exit {F : Fixture} {K n : Nat} {s : CrawlState} {u : List Char}
    {rest : List (List Char)} {r : Finset (List Char) × Finset (List Char)}
    (h1 : s.urls = u :: rest) (h2 : crawlStep F K s u rest = StepOut.exitRes r) :
    crawlStates F K (n + 1) s = [s] := by
  simp only [crawlStates, h1, h2]

theorem crawlStates_succ_cont {F : Fixture} {K n : Nat} {s s' : CrawlState} {u : List Char}
    {rest : List (List Char)}
    (h1 : s.urls = u :: rest) (h2 : crawlStep F K s u rest = StepOut.cont s') :
    crawlStates F K (n + 1) s = s :: crawlStates F K n s' := by
  simp only [crawlStates, h1, h2]

/-- Every property of loop-head states that one iteration preserves holds at
every loop-head state of the crawl. -/
theorem crawlStates_lift (P : CrawlState → Prop) (F : Fixture) (K : Nat)
    (hstep : ∀ s u rest s', s.urls = u :: rest → P s →
      crawlStep F K s u rest = StepOut.cont s' → P s') :
    ∀ (fuel : Nat) (s : CrawlState), P s → ∀ t ∈ crawlStates F K fuel s, P t := by
  intro fuel
  induction fuel with
  | zero =>
    intro s hs t ht
    simp only [crawlStates, List.mem_singleton] at ht
    exact ht ▸ hs
  | succ n ih =>
    intro s hs t ht
    cases hurls : s.urls with
    | nil =>
      rw [crawlStates_succ_nil hurls] at ht
      simp only [List.mem_singleton] at ht
      exact ht ▸ hs
    | cons u rest =>
      cases hstepq : crawlStep F K s u rest with
      | exitRes r =>
        rw [crawlStates_succ_exit hurls hstepq] at ht
        simp only [List.mem_singleton] at ht
        exact ht ▸ hs
      | cont s' =>
        rw [crawlStates_succ_cont hurls hstepq] at ht
        rcases List.mem_cons.mp ht with rfl | ht'
        · exact hs
        · exact ih s' (hstep s u rest s' hurls hs hstepq) t ht'

/-! Properties of the anchor loop. -/

/-- Every url in the deque after the anchor loop was already there or is a fresh
link: not in the scraped set and free of excluded extensions. -/
theorem addLinks_mem {base pathv : List Char} :
    ∀ {links : List (List Char)} {urls : List (List Char)} {scraped : Finset (List Char)}
      {u : List Char}, u ∈ addLinks base pathv links urls scraped →
      u ∈ urls ∨ (u ∉ scraped ∧ hasExcluded u = false) := by
  intro links
  induction links with
  | nil =>
    intro urls scraped u h
    rw [addLinks] at h
    exact Or.inl h
  | cons l ls ih =>
    intro urls scraped u h
    rw [addLinks] at h
    split at h
    · exact ih h
    · next hcond =>
      push_neg at hcond
      rcases ih h with h' | h'
      · rcases List.mem_append.mp h' with h'' | h''
        · exact Or.inl h''
        · have he : u = normalizeLink base pathv l := List.mem_singleton.mp h''
          refine Or.inr ⟨he ▸ hcond.2.1, ?_⟩
          have := hcond.2.2
          simp only [he]
          simpa using this
      · exact Or.inr h'

/-- The anchor loop preserves absence of duplicates in the deque. -/
theorem addLinks_nodup {base pathv : List Char} :
    ∀ {links : List (List Char)} {urls : List (List Char)} {scraped : Finset (List Char)},
      urls.Nodup → (addLinks base pathv links urls scraped).Nodup := by
  intro links
  induction links with
  | nil =>
    intro urls scraped h
    rw [addLinks]
    exact h
  | cons l ls ih =>
    intro urls scraped h
    rw [addLinks]
    split
    · exact ih h
    · next hcond =>
      push_neg at hcond
      exact ih (by simp [List.nodup_append, h, hcond.1])

/-! Basic facts about the string helpers. -/

theorem isPrefixL_self (l : List Char) : isPrefixL l l = true := by
  induction l with
  | nil => rfl
  | cons a t ih => simp [isPrefixL, ih]

/-- A suffix is in particular a substring, so a url ending in an excluded
extension also contains it. -/
theorem containsL_of_isSuffixL {needle : List Char} :
    ∀ {hay : List Char}, isSuffixL needle hay = true → containsL needle hay = true := by
  intro hay
  induction hay with
  | nil =>
    intro h
    simp only [isSuffixL] at h
    have : needle = [] := by simpa using h
    subst this
    rfl
  | cons c t ih =>
    intro h
    simp only [isSuffixL, Bool.or_eq_true] at h
    rw [containsL, Bool.or_eq_true]
    rcases h with h | h
    · have : needle = c :: t := by simpa using h
      subst this
      exact Or.inl (isPrefixL_self _)
    · exact Or.inr (ih h)

/-! Invariants of the crawl. -/

/-- Frontier invariant: the deque has no duplicates and is disjoint from the
scraped set. -/
def InvState (s : CrawlState) : Prop :=
  s.urls.Nodup ∧ ∀ u ∈ s.urls, u ∉ s.local_scraped_urls

theorem crawlStep_invState {F : Fixture} {K : Nat} {s s' : CrawlState} {u : List Char}
    {rest : List (List Char)} (hs : InvState s) (hurls : s.urls = u :: rest)
    (h : crawlStep F K s u rest = StepOut.cont s') : InvState s' := by
  obtain ⟨hnd, hdisj⟩ := hs
  rw [hurls] at hnd hdisj
  obtain ⟨hune, hrestnd⟩ := List.nodup_cons.mp hnd
  obtain ⟨hscr, hcase⟩ := crawlStep_cont_cases h
  have hrest : ∀ v ∈ rest, v ∉ insert u s.local_scraped_urls := by
    intro v hv
    simp only [Finset.mem_insert, not_or]
    exact ⟨fun e => hune (e ▸ hv), hdisj v (List.mem_cons_of_mem _ hv)⟩
  rcases hcase with ⟨hurl, _⟩ | ⟨page, _, _, _, hurl⟩
  · refine ⟨by rw [hurl]; exact hrestnd, fun v hv => ?_⟩
    rw [hscr]
    exact hrest v (by rw [hurl] at hv; exact hv)
  · refine ⟨by rw [hurl]; exact addLinks_nodup hrestnd, fun v hv => ?_⟩
    rw [hscr]
    rw [hurl] at hv
    rcases addLinks_mem hv with h' | h'
    · exact hrest v h'
    · exact h'.1

/-- Every url in the deque at any loop head is the seed or has no excluded
extension: excluded links are never enqueued. -/
theorem crawlStates_excluded (F : Fixture) (K fuel : Nat) (d : List Char) :
    ∀ t ∈ crawlStates F K fuel ⟨[d], ∅, ∅⟩,
      ∀ v ∈ t.urls, v = d ∨ hasExcluded v = false := by
  refine crawlStates_lift (fun s => ∀ v ∈ s.urls, v = d ∨ hasExcluded v = false) F K
    ?_ fuel _ ?_
  · intro s u rest s' hurls hP h
    obtain ⟨_, hcase⟩ := crawlStep_cont_cases h
    intro v hv
    rcases hcase with ⟨hurl, _⟩ | ⟨page, _, _, _, hurl⟩
    · exact hP v (by rw [hurls]; exact List.mem_cons_of_mem u (by rw [hurl] at hv; exact hv))
    · rw [hurl] at hv
      rcases addLinks_mem hv with h' | h'
      · exact hP v (by rw [hurls]; exact List.mem_cons_of_mem u h')
      · exact Or.inr h'.2
  · intro v hv
    simp only [List.mem_singleton] at hv
    exact Or.inl hv

/-- The deque at any loop head has no duplicates and avoids the scraped set. -/
theorem crawlStates_invState (F : Fixture) (K fuel : Nat) (d : List Char) :
    ∀ t ∈ crawlStates F K fuel ⟨[d], ∅, ∅⟩, InvState t := by
  refine crawlStates_lift InvState F K ?_ fuel _ ?_
  · intro s u rest s' hurls hP h
    exact crawlStep_invState hP hurls h
  · exact ⟨List.nodup_singleton d, by simp⟩

/-! Counting the successfully fetched urls. -/

theorem filter_insert_card_le (p : List Char → Prop) [DecidablePred p]
    (a : List Char) (s : Finset (List Char)) :
    (Finset.filter p (insert a s)).card ≤ (Finset.filter p s).card + 1 := by
  rw [Finset.filter_insert]
  split
  · exact Finset.card_insert_le _ _
  · exact Nat.le_succ _

/-- Through the loop, the number of scraped urls that were valid and received a
response stays below max_urls at every loop head. -/
theorem crawlStates_goodCard (F : Fixture) (K : Nat) :
    ∀ (fuel : Nat) (s : CrawlState),
      (s.local_scraped_urls.filter fun u => respondedValid F u = true).card < K →
      ∀ t ∈ crawlStates F K fuel s,
        (t.local_scraped_urls.filter fun u => respondedValid F u = true).card < K := by
  refine fun fuel s h t ht => crawlStates_lift
    (fun s => (s.local_scraped_urls.filter fun u => respondedValid F u = true).card < K)
    F K ?_ fuel s h t ht
  intro s u rest s' hurls hP h
  obtain ⟨hscr, hcase⟩ := crawlStep_cont_cases h
  rw [hscr]
  rcases hcase with ⟨_, hresp⟩ | ⟨page, hF, _, hcard, _⟩
  · rw [Finset.filter_insert, if_neg (by simp [hresp])]
    exact hP
  · calc ((insert u s.local_scraped_urls).filter fun u => respondedValid F u = true).card
        ≤ (insert u s.local_scraped_urls).card := Finset.card_filter_le _ _
      _ < K := hcard

/-- When the loop returns, the number of scraped urls that were valid and
received a response is at most max_urls. -/
theorem crawlLoop_goodCard (F : Fixture) (K : Nat) :
    ∀ (fuel : Nat) (s : CrawlState) (r : Finset (List Char) × Finset (List Char)),
      (s.local_scraped_urls.filter fun u => respondedValid F u = true).card < K →
      crawlLoop F K fuel s = some r →
      (r.2.filter fun u => respondedValid F u = true).card ≤ K := by
  intro fuel
  induction fuel with
  | zero =>
    intro s r h hl
    simp only [crawlLoop] at hl
    cases hl
  | succ n ih =>
    intro s r hlt hl
    cases hurls : s.urls with
    | nil =>
      rw [crawlLoop_succ_nil hurls] at hl
      cases hl
      exact le_of_lt hlt
    | cons u rest =>
      cases hstepq : crawlStep F K s u rest with
      | exitRes r0 =>
        rw [crawlLoop_succ_exit hurls hstepq] at hl
        cases hl
        rw [crawlStep_exit_scraped hstepq]
        calc ((insert u s.local_scraped_urls).filter fun u => respondedValid F u = true).card
            ≤ (s.local_scraped_urls.filter fun u => respondedValid F u = true).card + 1 :=
              filter_insert_card_le _ _ _
          _ ≤ K := Nat.succ_le_of_lt hlt
      | cont s' =>
        rw [crawlLoop_succ_cont hurls hstepq] at hl
        refine ih s' r ?_ hl
        obtain ⟨hscr, hcase⟩ := crawlStep_cont_cases hstepq
        rw [hscr]
        rcases hcase with ⟨_, hresp⟩ | ⟨page, hF, _, hcard, _⟩
        · rw [Finset.filter_insert, if_neg (by simp [hresp])]
          exact hlt
        · calc ((insert u s.local_scraped_urls).filter fun u => respondedValid F u = true).card
              ≤ (insert u s.local_scraped_urls).card := Finset.card_filter_le _ _
            _ < K := hcard

/-! Properties of the store. -/

theorem mem_insertOrIgnore {db : EmailsTable} {row x : List Char × DbVal} :
    x ∈ insertOrIgnore db row ↔ x ∈ db ∨ x = row := by
  unfold insertOrIgnore
  split
  · next hmem =>
    constructor
    · exact Or.inl
    · rintro (h | rfl)
      · exact h
      · exact hmem
  · simp [List.mem_append]

theorem insertOrIgnore_nodup {db : EmailsTable} {row : List Char × DbVal}
    (h : db.Nodup) : (insertOrIgnore db row).Nodup := by
  unfold insertOrIgnore
  split
  · exact h
  · next hmem => simp [List.nodup_append, h, hmem]

theorem insertOrIgnore_of_mem {db : EmailsTable} {row : List Char × DbVal}
    (h : row ∈ db) : insertOrIgnore db row = db := by
  unfold insertOrIgnore
  exact if_pos h

theorem mem_save_to_db {domain : List Char} :
    ∀ {es : List DbVal} {db : EmailsTable} {x : List Char × DbVal},
      x ∈ save_to_db db domain es ↔ x ∈ db ∨ ∃ e ∈ es, x = (domain, e) := by
  intro es
  induction es with
  | nil => intro db x; simp [save_to_db]
  | cons e es ih =>
    intro db x
    rw [save_to_db, ih]
    rw [mem_insertOrIgnore]
    constructor
    · rintro ((h | h) | ⟨e', he', rfl⟩)
      · exact Or.inl h
      · exact Or.inr ⟨e, List.mem_cons_self e es, h⟩
      · exact Or.inr ⟨e', List.mem_cons_of_mem e he', rfl⟩
    · rintro (h | ⟨e', he', rfl⟩)
      · exact Or.inl (Or.inl h)
      · rcases List.mem_cons.mp he' with rfl | he''
        · exact Or.inl (Or.inr rfl)
        · exact Or.inr ⟨e', he'', rfl⟩

theorem save_to_db_nodup {domain : List Char} :
    ∀ {es : List DbVal} {db : EmailsTable}, db.Nodup → (save_to_db db domain es).Nodup := by
  intro es
  induction es with
  | nil => intro db h; exact h
  | cons e es ih => intro db h; exact ih (insertOrIgnore_nodup h)

theorem save_to_db_of_mem {domain : List Char} :
    ∀ {es : List DbVal} {db : EmailsTable},
      (∀ e ∈ es, (domain, e) ∈ db) → save_to_db db domain es = db := by
  intro es
  induction es with
  | nil => intro db _; rfl
  | cons e es ih =>
    intro db h
    rw [save_to_db, insertOrIgnore_of_mem (h e (List.mem_cons_self e es))]
    exact ih fun e' he' => h e' (List.mem_cons_of_mem e he')

/-- Storing the result of the same crawl a second time leaves the table
unchanged: every row of the second write is already present. -/
theorem process_one_domain_idem (F : Fixture) (fuel K : Nat)
    (db : EmailsTable) (d : List Char) :
    process_one_domain F fuel K (process_one_domain F fuel K db d) d =
      process_one_domain F fuel K db d := by
  cases hscr : scrape_domain d K F fuel with
  | none => simp only [process_one_domain, hscr]
  | some p =>
    obtain ⟨es, vs⟩ := p
    by_cases he : es = ∅
    · simp only [process_one_domain, hscr, if_pos he]
      apply save_to_db_of_mem
      intro e he'
      have : e = DbVal.intVal 0 := List.mem_singleton.mp he'
      subst this
      exact mem_save_to_db.mpr (Or.inr ⟨_, List.mem_singleton_self _, rfl⟩)
    · simp only [process_one_domain, hscr, if_neg he]
      apply save_to_db_of_mem
      intro e he'
      exact mem_save_to_db.mpr (Or.inr ⟨e, he', rfl⟩)

/-- Writing one domain result preserves uniqueness of the stored rows. -/
theorem process_one_domain_nodup (F : Fixture) (fuel K : Nat)
    {db : EmailsTable} (d : List Char) (h : db.Nodup) :
    (process_one_domain F fuel K db d).Nodup := by
  cases hscr : scrape_domain d K F fuel with
  | none => simpa only [process_one_domain, hscr] using h
  | some p =>
    obtain ⟨es, vs⟩ := p
    by_cases he : es = ∅
    · simp only [process_one_domain, hscr, if_pos he]
      exact save_to_db_nodup h
    · simp only [process_one_domain, hscr, if_neg he]
      exact save_to_db_nodup h

/-- Fixture in which every fetch times out; used by several witnesses. -/
def fixtureNone : Fixture := fun _ => none

/-! Claims. -/

/-- C1: Fail-fast on non-200.  At any point of any domain crawl, if the popped
url is valid and its fetch completes with a status code other than 200, the
loop returns at once: the found emails are exactly those collected before this
page (its body is not scanned for emails), the visited set gains only this url,
and no further frontier url is fetched even though the frontier rest may be
nonempty. -/
theorem c1_fail_fast_non200 (F : Fixture) (K fuel : Nat) (s : CrawlState)
    (u : List Char) (rest : List (List Char)) (page : Page)
    (hu : s.urls = u :: rest) (hv : is_valid_url u = true)
    (hF : F u = some page) (hs : page.status ≠ 200) :
    crawlLoop F K (fuel + 1) s = some (s.local_emails, insert u s.local_scraped_urls) :=
  crawlLoop_succ_exit hu (crawlStep_non200 hv hF hs)

/-- Fixture for the C1 witness: the seed answers 404 with an email in its body
and a link in its anchors. -/
def fixtureC1 : Fixture := fun u =>
  if u = "http://a.test/".toList then
    some ⟨404, "boss@a.test".toList, ["/next".toList]⟩
  else none

/-- Witness for C1: on a 404 seed the crawl returns at once with no emails,
although the 404 body holds an email and a link. -/
theorem c1_fail_fast_non200_witness :
    is_valid_url "http://a.test/".toList = true ∧
    fixtureC1 "http://a.test/".toList = some ⟨404, "boss@a.test".toList, ["/next".toList]⟩ ∧
    (404 : Nat) ≠ 200 ∧
    crawlLoop fixtureC1 10 1 ⟨["http://a.test/".toList], ∅, ∅⟩ =
      some (∅, insert "http://a.test/".toList ∅) :=
  ⟨by decide, by decide, by decide,
    c1_fail_fast_non200 fixtureC1 10 0 ⟨["http://a.test/".toList], ∅, ∅⟩
      "http://a.test/".toList [] ⟨404, "boss@a.test".toList, ["/next".toList]⟩
      rfl (by decide) (by decide) (by decide)⟩

/-- Fixture for the C2 counterexample: the seed page links to three strings that
start with http, so they are enqueued unchanged, yet they are invalid urls, so
their iterations skip the max_urls bound check. -/
def fixtureC2 : Fixture := fun u =>
  if u = "http://a.test/".toList then
    some ⟨200, [], ["httpx".toList, "httpy".toList, "httpz".toList]⟩
  else none

/-- Counterexample to C2 as stated: with max_urls = 2 the crawl visits 4 urls,
because iterations on invalid (or timed-out) urls skip the bound check. -/
theorem c2_frontier_bound_counterexample :
    scrape_domain "http://a.test/".toList 2 fixtureC2 10 =
      some (∅, {"http://a.test/".toList, "httpx".toList, "httpy".toList, "httpz".toList}) ∧
    2 < ({"http://a.test/".toList, "httpx".toList, "httpy".toList, "httpz".toList} :
          Finset (List Char)).card := by
  have h : scrape_domain "http://a.test/".toList 2 fixtureC2 10 =
      some (∅, {"httpz".toList, "httpy".toList, "httpx".toList, "http://a.test/".toList}) := rfl
  have e : ({"httpz".toList, "httpy".toList, "httpx".toList, "http://a.test/".toList} :
      Finset (List Char)) =
      {"http://a.test/".toList, "httpx".toList, "httpy".toList, "httpz".toList} := by decide
  rw [h, e]
  exact ⟨rfl, by decide⟩

/-- C2 amended: for max_urls = K with 0 < K, the set of visited urls that were
valid and received a response never exceeds K, at every loop head and on
return; the full visited set can exceed K only through invalid or timed-out
urls, whose iterations bypass the bound check. -/
theorem c2_frontier_bound_amended (F : Fixture) (K fuel : Nat) (d : List Char)
    (t : CrawlState) (r : Finset (List Char) × Finset (List Char)) (hK : 0 < K) :
    (t ∈ crawlStates F K fuel ⟨[d], ∅, ∅⟩ →
      (t.local_scraped_urls.filter fun u => respondedValid F u = true).card ≤ K) ∧
    (scrape_domain d K F fuel = some r →
      (r.2.filter fun u => respondedValid F u = true).card ≤ K) := by
  have h0 : (Finset.filter (fun u => respondedValid F u = true)
      (∅ : Finset (List Char))).card < K := by simpa using hK
  constructor
  · intro ht
    exact le_of_lt (crawlStates_goodCard F K fuel ⟨[d], ∅, ∅⟩ h0 t ht)
  · intro hr
    exact crawlLoop_goodCard F K fuel ⟨[d], ∅, ∅⟩ r h0 hr

/-- Witness for C2 amended, on a crawl in which the single fetch times out. -/
theorem c2_frontier_bound_amended_witness :
    0 < 1 ∧
    scrape_domain "http://a.test/".toList 1 fixtureNone 2 =
      some (∅, {"http://a.test/".toList}) ∧
    (({"http://a.test/".toList} : Finset (List Char)).filter
      (fun u => respondedValid fixtureNone u = true)).card ≤ 1 :=
  ⟨by decide, by decide,
    (c2_frontier_bound_amended fixtureNone 1 2 "http://a.test/".toList
      ⟨["http://a.test/".toList], ∅, ∅⟩ (∅, {"http://a.test/".toList})
      (by decide)).2 (by decide)⟩

/-- Fixture for C3: the example of the spec, a seed page with one email and a
relative link to /about, whose page holds a second email and no links. -/
def fixtureC3 : Fixture := fun u =>
  if u = "http://a.test/".toList then
    some ⟨200, "contact us at info@a.test".toList, ["/about".toList]⟩
  else if u = "http://a.test/about".toList then
    some ⟨200, "sales@a.test".toList, []⟩
  else none

/-- C3: End-to-end example: crawling the seed against the two-page fixture with
max_urls = 10 finds exactly the two emails and visits exactly 2 urls. -/
theorem c3_end_to_end_example :
    scrape_domain "http://a.test/".toList 10 fixtureC3 5 =
      some ({"info@a.test".toList, "sales@a.test".toList},
            {"http://a.test/".toList, "http://a.test/about".toList}) ∧
    ({"http://a.test/".toList, "http://a.test/about".toList} :
      Finset (List Char)).card = 2 := by
  have h : scrape_domain "http://a.test/".toList 10 fixtureC3 5 =
      some ({"info@a.test".toList, "sales@a.test".toList},
            {"http://a.test/about".toList, "http://a.test/".toList}) := rfl
  have e : ({"http://a.test/about".toList, "http://a.test/".toList} : Finset (List Char)) =
      {"http://a.test/".toList, "http://a.test/about".toList} := by decide
  rw [h, e]
  exact ⟨rfl, by decide⟩

/-- C4: At-most-once visiting: at every loop head of every crawl the frontier
deque has no duplicates and no frontier url is already in the visited set; a
normalized link is enqueued only when absent from both, and since every popped
url enters the visited set in its own iteration, no url is popped and fetched
twice. -/
theorem c4_at_most_once (F : Fixture) (K fuel : Nat) (d : List Char) (t : CrawlState)
    (ht : t ∈ crawlStates F K fuel ⟨[d], ∅, ∅⟩) :
    t.urls.Nodup ∧ ∀ u ∈ t.urls, u ∉ t.local_scraped_urls :=
  crawlStates_invState F K fuel d t ht

/-- Witness for C4 at the initial state of a concrete crawl. -/
theorem c4_at_most_once_witness :
    (⟨["http://a.test/".toList], ∅, ∅⟩ : CrawlState) ∈
      crawlStates fixtureNone 1 1 ⟨["http://a.test/".toList], ∅, ∅⟩ ∧
    (["http://a.test/".toList].Nodup ∧
      ∀ u ∈ ["http://a.test/".toList], u ∉ (∅ : Finset (List Char))) :=
  ⟨by decide,
    c4_at_most_once fixtureNone 1 1 "http://a.test/".toList
      ⟨["http://a.test/".toList], ∅, ∅⟩ (by decide)⟩

/-- Resolver written from the wording of claim C5: the directory portion of the
current page url, that is its prefix up to and including the last slash,
concatenated with the href.  Kept only to compare that wording to the code. -/
def resolveClaimC5 (url href : List Char) : List Char :=
  upToLastSlash url ++ href

/-- Counterexample to C5 as stated: for current page http://a.test, whose path
component holds no slash, and href about, the code produces http://a.testabout
while the claimed directory-portion resolution gives http://about. -/
theorem c5_relative_resolution_counterexample :
    isPrefixL "/".toList "about".toList = false ∧
    isPrefixL "http".toList "about".toList = false ∧
    '/' ∉ (urlsplit "http://a.test".toList).path ∧
    normalizeLink (baseUrlOf "http://a.test".toList) (pathOf "http://a.test".toList)
      "about".toList = "http://a.testabout".toList ∧
    resolveClaimC5 "http://a.test".toList "about".toList = "http://about".toList ∧
    "http://a.testabout".toList ≠ "http://about".toList := by
  decide

/-- C5 amended: for every href starting neither with a slash nor with http, the
normalized url is the prefix of the current url up to and including its last
slash concatenated with the href when the path component of the current url
contains a slash; when it does not, the whole current url is the prefix. -/
theorem c5_relative_resolution_amended (url href : List Char)
    (h1 : isPrefixL "/".toList href = false)
    (h2 : isPrefixL "http".toList href = false) :
    normalizeLink (baseUrlOf url) (pathOf url) href =
      (if '/' ∈ (urlsplit url).path then upToLastSlash url else url) ++ href := by
  have h1' : isPrefixL ['/'] href = false := h1
  have h2' : isPrefixL ['h', 't', 't', 'p'] href = false := h2
  simp [normalizeLink, pathOf, h1', h2']

/-- Witness for C5 amended at a concrete page and href. -/
theorem c5_relative_resolution_amended_witness :
    isPrefixL "/".toList "y".toList = false ∧
    isPrefixL "http".toList "y".toList = false ∧
    normalizeLink (baseUrlOf "http://a.test/x".toList) (pathOf "http://a.test/x".toList)
      "y".toList =
      (if '/' ∈ (urlsplit "http://a.test/x".toList).path
       then upToLastSlash "http://a.test/x".toList
       else "http://a.test/x".toList) ++ "y".toList :=
  ⟨by decide, by decide,
    c5_relative_resolution_amended "http://a.test/x".toList "y".toList
      (by decide) (by decide)⟩

/-- Fixture for the C6 counterexample: the page at http://a.test/about has one
anchor without href, delivered as the empty string by the parse primitive. -/
def fixtureC6 : Fixture := fun u =>
  if u = "http://a.test/about".toList then some ⟨200, [], [[]]⟩ else none

/-- Counterexample to C6 as stated: on page http://a.test/about a single anchor
with a missing href makes the crawler enqueue http://a.test/ (the path value of
the page), which is later popped and fetched: the empty link did cause a url to
be added to the frontier. -/
theorem c6_missing_href_counterexample :
    addLinks (baseUrlOf "http://a.test/about".toList) (pathOf "http://a.test/about".toList)
      [[]] [] {"http://a.test/about".toList} = ["http://a.test/".toList] ∧
    scrape_domain "http://a.test/about".toList 10 fixtureC6 5 =
      some (∅, {"http://a.test/about".toList, "http://a.test/".toList}) := by
  have h : scrape_domain "http://a.test/about".toList 10 fixtureC6 5 =
      some (∅, {"http://a.test/".toList, "http://a.test/about".toList}) := rfl
  have e : ({"http://a.test/".toList, "http://a.test/about".toList} : Finset (List Char)) =
      {"http://a.test/about".toList, "http://a.test/".toList} := by decide
  rw [h, e]
  exact ⟨by decide, rfl⟩

/-- C6 amended: an anchor with no href resolves to the path value of the current
page, and the anchor loop treats that value exactly like any other normalized
link: nothing is added precisely when the path value is already in the deque,
already in the scraped set, or matches the exclusion filter — in particular when
the page url ends in a slash the path value is the page itself, just visited —
and in every other case the path value is appended to the deque. -/
theorem c6_missing_href_amended (url : List Char) (ls : List (List Char))
    (urls : List (List Char)) (scraped : Finset (List Char)) :
    normalizeLink (baseUrlOf url) (pathOf url) [] = pathOf url ∧
    addLinks (baseUrlOf url) (pathOf url) ([] :: ls) urls scraped =
      (if pathOf url ∈ urls ∨ pathOf url ∈ scraped ∨ hasExcluded (pathOf url) = true
       then addLinks (baseUrlOf url) (pathOf url) ls urls scraped
       else addLinks (baseUrlOf url) (pathOf url) ls (urls ++ [pathOf url]) scraped) := by
  have e : normalizeLink (baseUrlOf url) (pathOf url) [] = pathOf url := by
    simp [normalizeLink, isPrefixL]
  refine ⟨e, ?_⟩
  simp only [addLinks, e]

/-- Witness for C6 amended on a concrete page, deque and scraped set: the path
value http://a.test/ is fresh there, so the missing href enqueues it. -/
theorem c6_missing_href_amended_witness :
    normalizeLink (baseUrlOf "http://a.test/about".toList) (pathOf "http://a.test/about".toList)
        [] = pathOf "http://a.test/about".toList ∧
    addLinks (baseUrlOf "http://a.test/about".toList) (pathOf "http://a.test/about".toList)
        ([] :: []) [] {"http://a.test/about".toList} =
      (if pathOf "http://a.test/about".toList ∈ ([] : List (List Char)) ∨
          pathOf "http://a.test/about".toList ∈
            ({"http://a.test/about".toList} : Finset (List Char)) ∨
          hasExcluded (pathOf "http://a.test/about".toList) = true
       then addLinks (baseUrlOf "http://a.test/about".toList)
              (pathOf "http://a.test/about".toList) [] [] {"http://a.test/about".toList}
       else addLinks (baseUrlOf "http://a.test/about".toList)
              (pathOf "http://a.test/about".toList) []
              ([] ++ [pathOf "http://a.test/about".toList]) {"http://a.test/about".toList}) :=
  c6_missing_href_amended "http://a.test/about".toList [] [] {"http://a.test/about".toList}

/-- C7: Exclusion filter: at every loop head of every crawl, a url ending in one
of the excluded extensions is never in the frontier except as the seed itself
(which is placed there at start rather than added as a link); hence a normalized
link ending in .pdf, .jpg, .jpeg or .png is never enqueued and never fetched. -/
theorem c7_exclusion_filter (F : Fixture) (K fuel : Nat) (d : List Char)
    (t : CrawlState) (u ext : List Char)
    (ht : t ∈ crawlStates F K fuel ⟨[d], ∅, ∅⟩) (hu : u ∈ t.urls)
    (hext : ext ∈ exclusion_list) (hsuf : isSuffixL ext u = true) :
    u = d := by
  rcases crawlStates_excluded F K fuel d t ht u hu with h | h
  · exact h
  · exfalso
    have hc : containsL ext u = true := containsL_of_isSuffixL hsuf
    have hx : hasExcluded u = true := by
      unfold hasExcluded
      rw [List.any_eq_true]
      exact ⟨ext, hext, hc⟩
    rw [h] at hx
    cases hx

/-- Witness for C7 at the initial state of a crawl whose seed ends in .pdf. -/
theorem c7_exclusion_filter_witness :
    (⟨["http://a.test/x.pdf".toList], ∅, ∅⟩ : CrawlState) ∈
      crawlStates fixtureNone 1 1 ⟨["http://a.test/x.pdf".toList], ∅, ∅⟩ ∧
    "http://a.test/x.pdf".toList ∈ (⟨["http://a.test/x.pdf".toList], ∅, ∅⟩ : CrawlState).urls ∧
    ".pdf".toList ∈ exclusion_list ∧
    isSuffixL ".pdf".toList "http://a.test/x.pdf".toList = true ∧
    "http://a.test/x.pdf".toList = "http://a.test/x.pdf".toList :=
  ⟨by decide, by decide, by decide, by decide,
    c7_exclusion_filter fixtureNone 1 1 "http://a.test/x.pdf".toList
      ⟨["http://a.test/x.pdf".toList], ∅, ∅⟩ "http://a.test/x.pdf".toList ".pdf".toList
      (by decide) (by decide) (by decide) (by decide)⟩

/-- C8: Dedup and idempotence: the crawl is a pure function of the fixture, so
two runs return the same found-emails set; writing the result twice leaves the
store unchanged after the first write, and the store rows stay free of
duplicate (domain, email) pairs. -/
theorem c8_dedup_idempotence (F : Fixture) (K fuel : Nat) (d : List Char)
    (db : EmailsTable) (r1 r2 : Option (Finset (List Char) × Finset (List Char)))
    (h1 : r1 = scrape_domain d K F fuel) (h2 : r2 = scrape_domain d K F fuel)
    (hdb : db.Nodup) :
    r1 = r2 ∧
    process_one_domain F fuel K (process_one_domain F fuel K db d) d =
      process_one_domain F fuel K db d ∧
    (process_one_domain F fuel K (process_one_domain F fuel K db d) d).Nodup := by
  subst h1
  subst h2
  exact ⟨rfl, process_one_domain_idem F fuel K db d,
    process_one_domain_nodup F fuel K d (process_one_domain_nodup F fuel K d hdb)⟩

/-- Witness for C8 on a concrete crawl and the empty store. -/
theorem c8_dedup_idempotence_witness :
    (some (∅, {"http://a.test/".toList}) :
        Option (Finset (List Char) × Finset (List Char))) =
      some (∅, {"http://a.test/".toList}) ∧
    process_one_domain fixtureNone 2 1
        (process_one_domain fixtureNone 2 1 [] "http://a.test/".toList)
        "http://a.test/".toList =
      process_one_domain fixtureNone 2 1 [] "http://a.test/".toList ∧
    (process_one_domain fixtureNone 2 1
        (process_one_domain fixtureNone 2 1 [] "http://a.test/".toList)
        "http://a.test/".toList).Nodup :=
  c8_dedup_idempotence fixtureNone 1 2 "http://a.test/".toList []
    (some (∅, {"http://a.test/".toList})) (some (∅, {"http://a.test/".toList}))
    (by decide) (by decide) (by decide)

/-- C9: Empty-result sentinel: when the crawl of a domain returns an empty
found-emails set, the caller stores the sentinel row (domain, 0); when the set
is nonempty, every found email is stored for the domain and no sentinel row
appears unless it was already in the store. -/
theorem c9_empty_result_sentinel (F : Fixture) (K fuel : Nat) (d : List Char)
    (db : EmailsTable) (es vs : Finset (List Char))
    (h : scrape_domain d K F fuel = some (es, vs)) :
    (es = ∅ → (d, DbVal.intVal 0) ∈ process_one_domain F fuel K db d) ∧
    (es ≠ ∅ →
      (∀ e ∈ es, (d, DbVal.textVal e) ∈ process_one_domain F fuel K db d) ∧
      ((d, DbVal.intVal 0) ∉ db → (d, DbVal.intVal 0) ∉ process_one_domain F fuel K db d)) := by
  constructor
  · intro he
    simp only [process_one_domain, h, if_pos he]
    exact mem_save_to_db.mpr (Or.inr ⟨_, List.mem_singleton_self _, rfl⟩)
  · intro he
    constructor
    · intro e hee
      simp only [process_one_domain, h, if_neg he]
      refine mem_save_to_db.mpr (Or.inr ⟨DbVal.textVal e, ?_, rfl⟩)
      exact List.mem_map.mpr ⟨e, (Finset.mem_sort _).mpr hee, rfl⟩
    · intro hnot hmem
      simp only [process_one_domain, h, if_neg he] at hmem
      rcases mem_save_to_db.mp hmem with hin | ⟨e', he', heq⟩
      · exact hnot hin
      · rcases List.mem_map.mp he' with ⟨e, _, rfl⟩
        simp at heq

/-- Witness for C9 on a crawl that finds no emails: the sentinel row lands in
the store. -/
theorem c9_empty_result_sentinel_witness :
    scrape_domain "http://a.test/".toList 1 fixtureNone 2 =
      some (∅, {"http://a.test/".toList}) ∧
    ("http://a.test/".toList, DbVal.intVal 0) ∈
      process_one_domain fixtureNone 2 1 [] "http://a.test/".toList :=
  ⟨by decide,
    (c9_empty_result_sentinel fixtureNone 1 2 "http://a.test/".toList [] ∅
      {"http://a.test/".toList} (by decide)).1 rfl⟩

/-- C10: Substring-based exclusion: at every loop head of every crawl, a url
containing one of the excluded extensions anywhere as a substring is never in
the frontier except as the seed; moreover the example url carrying a .pdf path
segment is excluded although it ends in none of the listed extensions, so the
filter excludes strictly more urls than those ending in an excluded extension. -/
theorem c10_substring_exclusion (F : Fixture) (K fuel : Nat) (d : List Char)
    (t : CrawlState) (u : List Char)
    (ht : t ∈ crawlStates F K fuel ⟨[d], ∅, ∅⟩) (hu : u ∈ t.urls)
    (hx : hasExcluded u = true) :
    u = d ∧
      (hasExcluded "http://a.test/.pdf-tools/index.html".toList = true ∧
        (exclusion_list.any fun x =>
          isSuffixL x "http://a.test/.pdf-tools/index.html".toList) = false) := by
  refine ⟨?_, by decide, by decide⟩
  rcases crawlStates_excluded F K fuel d t ht u hu with h | h
  · exact h
  · rw [h] at hx
    cases hx

/-- Witness for C10 at the initial state of a crawl whose seed contains .pdf as
a middle segment. -/
theorem c10_substring_exclusion_witness :
    (⟨["http://a.test/.pdf-tools/index.html".toList], ∅, ∅⟩ : CrawlState) ∈
      crawlStates fixtureNone 1 1 ⟨["http://a.test/.pdf-tools/index.html".toList], ∅, ∅⟩ ∧
    "http://a.test/.pdf-tools/index.html".toList ∈
      (⟨["http://a.test/.pdf-tools/index.html".toList], ∅, ∅⟩ : CrawlState).urls ∧
    hasExcluded "http://a.test/.pdf-tools/index.html".toList = true ∧
    "http://a.test/.pdf-tools/index.html".toList =
      "http://a.test/.pdf-tools/index.html".toList :=
  ⟨by decide, by decide, by decide,
    (c10_substring_exclusion fixtureNone 1 1 "http://a.test/.pdf-tools/index.html".toList
      ⟨["http://a.test/.pdf-tools/index.html".toList], ∅, ∅⟩
      "http://a.test/.pdf-tools/index.html".toList
      (by decide) (by decide) (by decide)).1⟩

end MailMiner
